import Mathlib

/-!
# claparse: a verification development

Shallow embedding of `src/claparse.hpp`.

* A `std::string` is a Lean `String`, read as its sequence of characters
  (`String.data`): each character stands for one `char`, `size()` is the length
  of that sequence, `s[i]` is its `i`-th element and `front()` its head.
* A `std::vector<T>` is a `List T`.
* An access the C++ standard leaves undefined (`names_[0]` on an empty vector,
  `front()` on an empty string, `s[i]` beyond the end) makes the embedded
  function return `none`.
* A `std::ostream&` argument is the text written so far; a function writing to
  it returns the extended text.
* A `std::map<std::string, V>` is the list of its entries in iteration order
  (ascending keys).
-/

namespace claparse

/-! ## Strings -/

/-- Embedding of `std::string::size()`. -/
def size (s : String) : Nat := s.data.length

/-- Embedding of `std::string::front()`: undefined on the empty string. -/
def front (s : String) : Option Char := s.data.head?

/-- Embedding of `std::string::operator[]`, defined for indices below the size. -/
def charAt (s : String) (i : Nat) : Option Char := s.data[i]?

/-- Lexicographic comparison of two character sequences, as
`std::string::compare` orders them: the first differing character decides, and
a proper initial segment comes first. -/
def lexLess : List Char → List Char → Bool
  | _, [] => false
  | [], _ :: _ => true
  | a :: as, b :: bs =>
    if a.toNat < b.toNat then true
    else if b.toNat < a.toNat then false
    else lexLess as bs

/-- Embedding of `std::less<std::string>`, the comparison of the keys of
`sub_commands_`. -/
def less (a b : String) : Bool := lexLess a.data b.data

namespace engine

/-! ## `engine::ParseState` -/

/-- Embedding of `class ParseState {}`: a class without members. -/
structure ParseState where
deriving DecidableEq, Repr

/-! ## `engine::ArgumentNames` -/

/-- Embedding of `class ArgumentNames`: the vector `names_`. -/
structure ArgumentNames where
  names_ : List String
deriving DecidableEq, Repr

namespace ArgumentNames

/-- Embedding of `ArgumentNames::contains`: `std::any_of` with `n == name`. -/
def contains (self : ArgumentNames) (name : String) : Bool :=
  self.names_.any (fun n => n == name)

/-- The range-for loop of `shortName`: `some (some name)` when the loop returns
`name`, `some none` when it runs to the end, `none` on an undefined access. -/
def shortNameLoop : List String → Option (Option String)
  | [] => some none
  | name :: rest =>
    if size name = 2 then
      match charAt name 1 with
      | none => none
      | some c => if c ≠ '-' then some (some name) else shortNameLoop rest
    else shortNameLoop rest

/-- Embedding of `ArgumentNames::shortName`. -/
def shortName (self : ArgumentNames) : Option String :=
  match self.names_ with
  | [] => none
  | n0 :: _ =>
    match front n0 with
    | none => none
    | some c =>
      if c ≠ '-' then some n0
      else
        match shortNameLoop self.names_ with
        | none => none
        | some (some name) => some name
        | some none => some n0

/-- The range-for loop of `longName`, with the outcomes of `shortNameLoop`. -/
def longNameLoop : List String → Option (Option String)
  | [] => some none
  | name :: rest =>
    if size name > 2 then
      match charAt name 1 with
      | none => none
      | some c => if c = '-' then some (some name) else longNameLoop rest
    else longNameLoop rest

/-- Embedding of `ArgumentNames::longName`. -/
def longName (self : ArgumentNames) : Option String :=
  match self.names_ with
  | [] => none
  | n0 :: _ =>
    match front n0 with
    | none => none
    | some c =>
      if c ≠ '-' then some n0
      else
        match longNameLoop self.names_ with
        | none => none
        | some (some name) => some name
        | some none => some n0

end ArgumentNames

end engine

namespace actions

/-! ## `actions::Action` -/

/-- Embedding of the class hierarchy under `actions::Action`: the object a
`std::shared_ptr<Action>` points to is a `Flag` or a `Value`; neither class has
a data member. -/
inductive Action where
  | Flag
  | Value
deriving DecidableEq, Repr

/-- Embedding of `Flag::Make`. -/
def Flag.Make : Action := Action.Flag

/-- Embedding of `Value::Make`. -/
def Value.Make : Action := Action.Value

/-- Embedding of `Flag::parse`: the body is empty, so the state the reference
designates is left as it is; the function has no failure path. -/
def Flag.parse (state : engine.ParseState) : engine.ParseState := state

/-- Embedding of `Value::parse`: the body is empty, so the state the reference
designates is left as it is; the function has no failure path. -/
def Value.parse (state : engine.ParseState) : engine.ParseState := state

/-- Embedding of the virtual call `Action::parse` through a
`std::shared_ptr<Action>`. -/
def Action.parse : Action → engine.ParseState → engine.ParseState
  | Action.Flag, state => Flag.parse state
  | Action.Value, state => Value.parse state

end actions

/-! ## `Argument` -/

/-- Embedding of `class Argument`; `help_` is `none` for `nullptr`. -/
structure Argument where
  names_ : engine.ArgumentNames
  action_ : actions.Action
  help_ : Option String
deriving DecidableEq, Repr

namespace Argument

/-- Embedding of the constructor `Argument(Iterable)`: the names are copied in
order, `action_` and `help_` take their default member initialisers. -/
def ofNames (iterable : List String) : Argument :=
  { names_ := engine.ArgumentNames.mk iterable, action_ := actions.Value.Make, help_ := none }

/-- Embedding of `Argument::names`. -/
def names (self : Argument) : engine.ArgumentNames := self.names_

/-- Embedding of `Argument::action`. -/
def action (self : Argument) (a : actions.Action) : Argument := { self with action_ := a }

/-- Embedding of `Argument::asFlag`. -/
def asFlag (self : Argument) : Argument := self.action actions.Flag.Make

/-- Embedding of `Argument::asValue`. -/
def asValue (self : Argument) : Argument := self.action actions.Value.Make

/-- Embedding of `Argument::help`. -/
def help (self : Argument) (help_string : String) : Argument :=
  { self with help_ := some help_string }

/-- Embedding of `Argument::formatUsage`: `os << names().shortName()`. -/
def formatUsage (self : Argument) (os : String) : Option String :=
  match self.names.shortName with
  | none => none
  | some s => some (os ++ s)

/-- Embedding of `Argument::formatHelp(std::ostream&)`: the body is empty. -/
def formatHelp (_self : Argument) (os : String) : String := os

end Argument

/-! ## `std::map<std::string, V>` -/

/-- Embedding of `map[key] = value`: the entries are kept in ascending key
order; an entry of equivalent key has its value overwritten, otherwise a new
entry is inserted at its place in the order. -/
def mapAssign {V : Type} (map : List (String × V)) (key : String) (value : V) :
    List (String × V) :=
  match map with
  | [] => [(key, value)]
  | (k, v) :: rest =>
    if less key k then (key, value) :: (k, v) :: rest
    else if less k key then (k, v) :: mapAssign rest key value
    else (k, value) :: rest

/-- Embedding of `std::map::find`: the value stored under `key`, if any. -/
def mapFind {V : Type} (map : List (String × V)) (key : String) : Option V :=
  match map with
  | [] => none
  | (k, v) :: rest => if k = key then some v else mapFind rest key

/-- The keys of a map, in iteration order. -/
def mapKeys {V : Type} (map : List (String × V)) : List String := map.map Prod.fst

/-- The invariant of `std::map`: iteration visits strictly ascending keys. -/
def mapOrdered {V : Type} (map : List (String × V)) : Prop :=
  (mapKeys map).Pairwise (fun a b => less a b = true)

instance {V : Type} (map : List (String × V)) : Decidable (mapOrdered map) := by
  unfold mapOrdered; infer_instance

namespace detail

/-- Embedding of `detail::JoinMapKeyTo`. -/
def JoinMapKeyTo {V : Type} (os : String) (map : List (String × V)) (delimiter : String) :
    String :=
  match map with
  | [] => os
  | (first, _) :: rest => rest.foldl (fun os s => os ++ delimiter ++ s.1) (os ++ first)

end detail

/-! ## `ArgumentParser` -/

/-- Embedding of `class ArgumentParser`; `epilogue_` is `none` for a null
pointer, and a child held through `std::shared_ptr<ArgumentParser>` is the
child node itself. -/
inductive ArgumentParser where
  | mk (program_name_ : String) (description_ : String) (epilogue_ : Option String)
      (sub_commands_ : List (String × ArgumentParser)) (arguments_ : List Argument)

namespace ArgumentParser

/-- Field `program_name_`. -/
def program_name_ : ArgumentParser → String
  | mk n _ _ _ _ => n

/-- Field `description_`. -/
def description_ : ArgumentParser → String
  | mk _ d _ _ _ => d

/-- Field `epilogue_`. -/
def epilogue_ : ArgumentParser → Option String
  | mk _ _ e _ _ => e

/-- Field `sub_commands_`. -/
def sub_commands_ : ArgumentParser → List (String × ArgumentParser)
  | mk _ _ _ s _ => s

/-- Field `arguments_`. -/
def arguments_ : ArgumentParser → List Argument
  | mk _ _ _ _ a => a

/-- Embedding of the constructor `ArgumentParser(program_name, description)`. -/
def new (program_name description : String) : ArgumentParser :=
  mk program_name description none [] []

/-- Embedding of the constructor
`ArgumentParser(program_name, description, epilogue)`. -/
def newWithEpilogue (program_name description epilogue : String) : ArgumentParser :=
  mk program_name description (some epilogue) [] []

/-- Embedding of `ArgumentParser::addArgument(std::vector<std::string>)`: the
node after the call and the definition the returned reference designates. -/
def addArgument (self : ArgumentParser) (name : List String) : ArgumentParser × Argument :=
  let arguments := self.arguments_ ++ [Argument.ofNames name]
  (mk self.program_name_ self.description_ self.epilogue_ self.sub_commands_ arguments,
    Argument.ofNames name)

/-- Embedding of `ArgumentParser::addArgument(Argument)`. -/
def addArgumentValue (self : ArgumentParser) (args : Argument) : ArgumentParser :=
  mk self.program_name_ self.description_ self.epilogue_ self.sub_commands_
    (self.arguments_ ++ [args])

/-- Embedding of `ArgumentParser::addSubCommand`: the node after the call and
the child the returned reference designates. -/
def addSubCommand (self : ArgumentParser) (command description : String) :
    ArgumentParser × ArgumentParser :=
  let argParser := ArgumentParser.new command description
  (mk self.program_name_ self.description_ self.epilogue_
      (mapAssign self.sub_commands_ command argParser) self.arguments_,
    argParser)

/-- Embedding of `ArgumentParser::formatUsage`. -/
def formatUsage (self : ArgumentParser) (os : String) : String :=
  let os := os ++ "usage: " ++ self.program_name_
  if !self.sub_commands_.isEmpty then
    let os := os ++ " \x7b"
    let os := detail.JoinMapKeyTo os self.sub_commands_ ","
    os ++ "\x7d"
  else os

/-- Embedding of `ArgumentParser::formatHelp`: the body is empty. -/
def formatHelp (_self : ArgumentParser) (os : String) : String := os

/-- A sequence of `addSubCommand` calls on a node, in the order of the list. -/
def addSubCommands (self : ArgumentParser) (commands : List (String × String)) :
    ArgumentParser :=
  commands.foldl (fun node c => (node.addSubCommand c.1 c.2).1) self

/-- The node's sub-command map satisfies the invariant of `std::map`. -/
def ordered (self : ArgumentParser) : Prop := mapOrdered self.sub_commands_

instance (self : ArgumentParser) : Decidable self.ordered := by
  unfold ordered; infer_instance

end ArgumentParser

/-! ## Shapes of aliases -/

/-- The test of the loop of `shortName`: size exactly 2, second character not `-`. -/
def shortShape (s : String) : Prop :=
  size s = 2 ∧ ∃ c, charAt s 1 = some c ∧ c ≠ '-'

/-- The test of the loop of `longName`: size above 2, second character `-`. -/
def longShape (s : String) : Prop :=
  size s > 2 ∧ charAt s 1 = some '-'

/-- The alias begins with `-`. -/
def dashed (s : String) : Prop := front s = some '-'

/-- The `-x` form: size exactly 2, a `-` followed by a character that is not `-`. -/
def isShortForm (s : String) : Prop :=
  size s = 2 ∧ charAt s 0 = some '-' ∧ ∃ c, charAt s 1 = some c ∧ c ≠ '-'

/-- The `--xyz` form: size above 2, beginning with `--`. -/
def isLongForm (s : String) : Prop :=
  size s > 2 ∧ charAt s 0 = some '-' ∧ charAt s 1 = some '-'

instance (s : String) : Decidable (shortShape s) := by
  unfold shortShape
  cases h : charAt s 1 with
  | none => exact isFalse (by simp)
  | some c =>
    by_cases hc : c = '-'
    · exact isFalse (by simp [hc])
    · exact decidable_of_iff (size s = 2) (by simp [hc])

instance (s : String) : Decidable (longShape s) := by
  unfold longShape; infer_instance

instance (s : String) : Decidable (dashed s) := by
  unfold dashed; infer_instance

instance (s : String) : Decidable (isShortForm s) := by
  unfold isShortForm
  cases h : charAt s 1 with
  | none => exact isFalse (by simp)
  | some c =>
    by_cases hc : c = '-'
    · exact isFalse (by simp [hc])
    · exact decidable_of_iff (size s = 2 ∧ charAt s 0 = some '-') (by simp [hc])

instance (s : String) : Decidable (isLongForm s) := by
  unfold isLongForm; infer_instance

open engine

/-! ## Lemmas on the name resolver -/

/-- The loop of `shortName` never performs an undefined access; it returns the
earliest alias passing its test, or runs to the end when there is none. -/
theorem shortNameLoop_spec (names : List String) :
    (∃ pre s post, names = pre ++ s :: post ∧ (∀ t ∈ pre, ¬ shortShape t) ∧ shortShape s ∧
        ArgumentNames.shortNameLoop names = some (some s)) ∨
    ((∀ t ∈ names, ¬ shortShape t) ∧ ArgumentNames.shortNameLoop names = some none) := by
  induction names with
  | nil => right; simp [ArgumentNames.shortNameLoop]
  | cons name rest ih =>
    by_cases hs : shortShape name
    · left
      refine ⟨[], name, rest, rfl, by simp, hs, ?_⟩
      obtain ⟨h2, c, hc, hne⟩ := hs
      simp [ArgumentNames.shortNameLoop, h2, hc, hne]
    · have hloop : ArgumentNames.shortNameLoop (name :: rest) =
          ArgumentNames.shortNameLoop rest := by
        by_cases h2 : size name = 2
        · have hlt : 1 < name.data.length := by unfold size at h2; omega
          have hc : charAt name 1 = some (name.data[1]) := by
            unfold charAt; exact List.getElem?_eq_getElem hlt
          have hdash : name.data[1] = '-' := by
            by_contra hne
            exact hs ⟨h2, _, hc, hne⟩
          simp [ArgumentNames.shortNameLoop, h2, hc, hdash]
        · simp [ArgumentNames.shortNameLoop, h2]
      rcases ih with ⟨pre, s, post, hsplit, hpre, hshape, hres⟩ | ⟨hnone, hres⟩
      · left
        refine ⟨name :: pre, s, post, by simp [hsplit], ?_, hshape, by rw [hloop, hres]⟩
        intro t ht
        rcases List.mem_cons.mp ht with rfl | ht
        · exact hs
        · exact hpre t ht
      · right
        refine ⟨?_, by rw [hloop, hres]⟩
        intro t ht
        rcases List.mem_cons.mp ht with rfl | ht
        · exact hs
        · exact hnone t ht

/-- The loop of `longName` never performs an undefined access; it returns the
earliest alias passing its test, or runs to the end when there is none. -/
theorem longNameLoop_spec (names : List String) :
    (∃ pre s post, names = pre ++ s :: post ∧ (∀ t ∈ pre, ¬ longShape t) ∧ longShape s ∧
        ArgumentNames.longNameLoop names = some (some s)) ∨
    ((∀ t ∈ names, ¬ longShape t) ∧ ArgumentNames.longNameLoop names = some none) := by
  induction names with
  | nil => right; simp [ArgumentNames.longNameLoop]
  | cons name rest ih =>
    by_cases hs : longShape name
    · left
      refine ⟨[], name, rest, rfl, by simp, hs, ?_⟩
      obtain ⟨h2, hc⟩ := hs
      simp [ArgumentNames.longNameLoop, h2, hc]
    · have hloop : ArgumentNames.longNameLoop (name :: rest) =
          ArgumentNames.longNameLoop rest := by
        by_cases h2 : size name > 2
        · have hlt : 1 < name.data.length := by unfold size at h2; omega
          have hc : charAt name 1 = some (name.data[1]) := by
            unfold charAt; exact List.getElem?_eq_getElem hlt
          have hdash : name.data[1] ≠ '-' := by
            intro he
            exact hs ⟨h2, by rw [hc, he]⟩
          simp [ArgumentNames.longNameLoop, h2, hc, hdash]
        · simp [ArgumentNames.longNameLoop, h2]
      rcases ih with ⟨pre, s, post, hsplit, hpre, hshape, hres⟩ | ⟨hnone, hres⟩
      · left
        refine ⟨name :: pre, s, post, by simp [hsplit], ?_, hshape, by rw [hloop, hres]⟩
        intro t ht
        rcases List.mem_cons.mp ht with rfl | ht
        · exact hs
        · exact hpre t ht
      · right
        refine ⟨?_, by rw [hloop, hres]⟩
        intro t ht
        rcases List.mem_cons.mp ht with rfl | ht
        · exact hs
        · exact hnone t ht

/-- With a dashed first alias, `shortName` is the outcome of its loop, falling
back to the first alias. -/
theorem shortName_of_dashed (ns : ArgumentNames) (n0 : String) (rest : List String)
    (h : ns.names_ = n0 :: rest) (hd : dashed n0) :
    ns.shortName = (ArgumentNames.shortNameLoop ns.names_).map (fun r => r.getD n0) := by
  unfold dashed at hd
  rcases shortNameLoop_spec ns.names_ with ⟨_, s, _, _, _, _, hres⟩ | ⟨_, hres⟩
  · rw [hres]; simp only [ArgumentNames.shortName, h, hd]; rw [← h, hres]; simp
  · rw [hres]; simp only [ArgumentNames.shortName, h, hd]; rw [← h, hres]; simp

/-- With a dashed first alias, `longName` is the outcome of its loop, falling
back to the first alias. -/
theorem longName_of_dashed (ns : ArgumentNames) (n0 : String) (rest : List String)
    (h : ns.names_ = n0 :: rest) (hd : dashed n0) :
    ns.longName = (ArgumentNames.longNameLoop ns.names_).map (fun r => r.getD n0) := by
  unfold dashed at hd
  rcases longNameLoop_spec ns.names_ with ⟨_, s, _, _, _, _, hres⟩ | ⟨_, hres⟩
  · rw [hres]; simp only [ArgumentNames.longName, h, hd]; rw [← h, hres]; simp
  · rw [hres]; simp only [ArgumentNames.longName, h, hd]; rw [← h, hres]; simp

theorem dashed_charAt_zero (s : String) (h : dashed s) : charAt s 0 = some '-' := by
  unfold dashed front at h
  unfold charAt
  cases hd : s.data with
  | nil => rw [hd] at h; simp at h
  | cons a l => rw [hd] at h; simpa using h

theorem isShortForm_shortShape (s : String) (h : isShortForm s) : shortShape s :=
  ⟨h.1, h.2.2⟩

theorem isLongForm_longShape (s : String) (h : isLongForm s) : longShape s :=
  ⟨h.1, h.2.2⟩

theorem front_of_ne_empty (s : String) (h : s ≠ "") : ∃ c, front s = some c := by
  unfold front
  cases hd : s.data with
  | nil => exact absurd (String.ext hd) h
  | cons a l => exact ⟨a, rfl⟩

/-! ## Claims on the name resolver -/

/-- C1 (counterexample): in the name set `["--verbose", "ab", "-v"]` the first
alias begins with `-`, `-v` has the `-x` form and `--verbose` the `--xyz` form,
yet `shortName()` returns `ab`, which does not have the `-x` form; in
`["-v", "a-b", "--verbose"]` `longName()` returns `a-b`, which does not have
the `--xyz` form. -/
theorem shortName_longName_form_counterexample :
    (dashed "--verbose" ∧ isShortForm "-v" ∧ isLongForm "--verbose" ∧
      (ArgumentNames.mk ["--verbose", "ab", "-v"]).shortName = some "ab" ∧
      ¬ isShortForm "ab") ∧
    (dashed "-v" ∧ isShortForm "-v" ∧ isLongForm "--verbose" ∧
      (ArgumentNames.mk ["-v", "a-b", "--verbose"]).longName = some "a-b" ∧
      ¬ isLongForm "a-b") := by
  decide

/-- C1 (amended): for every name set whose first alias begins with `-` and which
contains an alias of the `-x` form and an alias of the `--xyz` form,
`shortName()` returns a declared alias of size exactly 2 whose second character
is not `-`, and `longName()` returns a declared alias of size above 2 whose
second character is `-`; when every alias of the name set begins with `-`, the
former has the `-x` form and the latter the `--xyz` form. -/
theorem shortName_longName_form (ns : ArgumentNames) (n0 : String) (rest : List String)
    (h : ns.names_ = n0 :: rest) (hd : dashed n0)
    (hS : ∃ s ∈ ns.names_, isShortForm s) (hL : ∃ l ∈ ns.names_, isLongForm l) :
    (∃ s, ns.shortName = some s ∧ s ∈ ns.names_ ∧ shortShape s ∧
      ((∀ n ∈ ns.names_, dashed n) → isShortForm s)) ∧
    (∃ l, ns.longName = some l ∧ l ∈ ns.names_ ∧ longShape l ∧
      ((∀ n ∈ ns.names_, dashed n) → isLongForm l)) := by
  constructor
  · rw [shortName_of_dashed ns n0 rest h hd]
    rcases shortNameLoop_spec ns.names_ with ⟨pre, s, post, hsplit, _, hshape, hres⟩ | ⟨hnone, _⟩
    · have hmem : s ∈ ns.names_ := by rw [hsplit]; simp
      refine ⟨s, by rw [hres]; rfl, hmem, hshape, fun hall => ?_⟩
      exact ⟨hshape.1, dashed_charAt_zero s (hall s hmem), hshape.2⟩
    · obtain ⟨s, hs, hform⟩ := hS
      exact absurd (isShortForm_shortShape s hform) (hnone s hs)
  · rw [longName_of_dashed ns n0 rest h hd]
    rcases longNameLoop_spec ns.names_ with ⟨pre, l, post, hsplit, _, hshape, hres⟩ | ⟨hnone, _⟩
    · have hmem : l ∈ ns.names_ := by rw [hsplit]; simp
      refine ⟨l, by rw [hres]; rfl, hmem, hshape, fun hall => ?_⟩
      exact ⟨hshape.1, dashed_charAt_zero l (hall l hmem), hshape.2⟩
    · obtain ⟨l, hl, hform⟩ := hL
      exact absurd (isLongForm_longShape l hform) (hnone l hl)

/-- C1 (witness): for `["-v", "--verbose"]` `shortName()` is `-v` and
`longName()` is `--verbose`, and likewise with the long alias declared first. -/
theorem shortName_longName_form_witness :
    ((∃ s, (ArgumentNames.mk ["-v", "--verbose"]).shortName = some s ∧
      s ∈ (ArgumentNames.mk ["-v", "--verbose"]).names_ ∧ shortShape s ∧
      ((∀ n ∈ (ArgumentNames.mk ["-v", "--verbose"]).names_, dashed n) → isShortForm s)) ∧
    (∃ l, (ArgumentNames.mk ["-v", "--verbose"]).longName = some l ∧
      l ∈ (ArgumentNames.mk ["-v", "--verbose"]).names_ ∧ longShape l ∧
      ((∀ n ∈ (ArgumentNames.mk ["-v", "--verbose"]).names_, dashed n) → isLongForm l))) ∧
    (ArgumentNames.mk ["-v", "--verbose"]).shortName = some "-v" ∧
    (ArgumentNames.mk ["-v", "--verbose"]).longName = some "--verbose" ∧
    (ArgumentNames.mk ["--verbose", "-v"]).shortName = some "-v" ∧
    (ArgumentNames.mk ["--verbose", "-v"]).longName = some "--verbose" :=
  ⟨shortName_longName_form (ArgumentNames.mk ["-v", "--verbose"]) "-v" ["--verbose"] rfl
    (by decide) ⟨"-v", by decide, by decide⟩ ⟨"--verbose", by decide, by decide⟩,
    by decide, by decide, by decide, by decide⟩

/-- C2: for every non-empty name set whose first alias begins with `-`,
`shortName()` returns the earliest alias, in declaration order, of size exactly
2 whose second character is not `-` (no alias declared before it has that
shape); when no alias has that shape it returns the first declared alias. -/
theorem shortName_earliest (ns : ArgumentNames) (n0 : String) (rest : List String)
    (h : ns.names_ = n0 :: rest) (hd : dashed n0) :
    (∃ pre s post, ns.names_ = pre ++ s :: post ∧ (∀ t ∈ pre, ¬ shortShape t) ∧
      shortShape s ∧ ns.shortName = some s) ∨
    ((∀ t ∈ ns.names_, ¬ shortShape t) ∧ ns.shortName = some n0) := by
  rw [shortName_of_dashed ns n0 rest h hd]
  rcases shortNameLoop_spec ns.names_ with ⟨pre, s, post, hsplit, hpre, hshape, hres⟩ | ⟨hnone, hres⟩
  · exact Or.inl ⟨pre, s, post, hsplit, hpre, hshape, by rw [hres]; rfl⟩
  · exact Or.inr ⟨hnone, by rw [hres]; rfl⟩

/-- C2 (witness): `["--verbose", "-v", "-q"]`. -/
theorem shortName_earliest_witness :
    ((∃ pre s post, (ArgumentNames.mk ["--verbose", "-v", "-q"]).names_ = pre ++ s :: post ∧
      (∀ t ∈ pre, ¬ shortShape t) ∧ shortShape s ∧
      (ArgumentNames.mk ["--verbose", "-v", "-q"]).shortName = some s) ∨
    ((∀ t ∈ (ArgumentNames.mk ["--verbose", "-v", "-q"]).names_, ¬ shortShape t) ∧
      (ArgumentNames.mk ["--verbose", "-v", "-q"]).shortName = some "--verbose")) ∧
    (ArgumentNames.mk ["--verbose", "-v", "-q"]).shortName = some "-v" :=
  ⟨shortName_earliest (ArgumentNames.mk ["--verbose", "-v", "-q"]) "--verbose" ["-v", "-q"] rfl
    (by decide), by decide⟩

/-- C3: for every non-empty name set whose first alias begins with `-`,
`longName()` returns the earliest alias, in declaration order, of size above 2
whose second character is `-` (so the first of two long-form aliases); when no
alias has that shape it returns the first declared alias. -/
theorem longName_earliest (ns : ArgumentNames) (n0 : String) (rest : List String)
    (h : ns.names_ = n0 :: rest) (hd : dashed n0) :
    (∃ pre l post, ns.names_ = pre ++ l :: post ∧ (∀ t ∈ pre, ¬ longShape t) ∧
      longShape l ∧ ns.longName = some l) ∨
    ((∀ t ∈ ns.names_, ¬ longShape t) ∧ ns.longName = some n0) := by
  rw [longName_of_dashed ns n0 rest h hd]
  rcases longNameLoop_spec ns.names_ with ⟨pre, l, post, hsplit, hpre, hshape, hres⟩ | ⟨hnone, hres⟩
  · exact Or.inl ⟨pre, l, post, hsplit, hpre, hshape, by rw [hres]; rfl⟩
  · exact Or.inr ⟨hnone, by rw [hres]; rfl⟩

/-- C3 (witness): `["-v", "--verbose", "--loud"]`, two long-form aliases. -/
theorem longName_earliest_witness :
    ((∃ pre l post, (ArgumentNames.mk ["-v", "--verbose", "--loud"]).names_ = pre ++ l :: post ∧
      (∀ t ∈ pre, ¬ longShape t) ∧ longShape l ∧
      (ArgumentNames.mk ["-v", "--verbose", "--loud"]).longName = some l) ∨
    ((∀ t ∈ (ArgumentNames.mk ["-v", "--verbose", "--loud"]).names_, ¬ longShape t) ∧
      (ArgumentNames.mk ["-v", "--verbose", "--loud"]).longName = some "-v")) ∧
    (ArgumentNames.mk ["-v", "--verbose", "--loud"]).longName = some "--verbose" :=
  ⟨longName_earliest (ArgumentNames.mk ["-v", "--verbose", "--loud"]) "-v"
    ["--verbose", "--loud"] rfl (by decide), by decide⟩

/-- When the first alias is non-empty and not dashed, both accessors return it
at their first guard. -/
theorem shortName_longName_positional_aux (ns : ArgumentNames) (n0 : String)
    (rest : List String) (h : ns.names_ = n0 :: rest) (hne : n0 ≠ "") (hd : ¬ dashed n0) :
    ns.shortName = some n0 ∧ ns.longName = some n0 := by
  obtain ⟨c, hc⟩ := front_of_ne_empty n0 hne
  have hcd : c ≠ '-' := by
    intro he
    exact hd (by unfold dashed; rw [hc, he])
  constructor
  · simp [ArgumentNames.shortName, h, hc, hcd]
  · simp [ArgumentNames.longName, h, hc, hcd]

/-- C4: for every non-empty name set whose first alias is non-empty and does not
begin with `-`, `shortName()` and `longName()` both return that first alias,
whatever the remaining aliases are. -/
theorem shortName_longName_positional (ns : ArgumentNames) (n0 : String) (rest : List String)
    (h : ns.names_ = n0 :: rest) (hne : n0 ≠ "") (hd : ¬ dashed n0) :
    ns.shortName = some n0 ∧ ns.longName = some n0 := by
  obtain ⟨c, hc⟩ := front_of_ne_empty n0 hne
  have hcd : c ≠ '-' := by
    intro he
    exact hd (by unfold dashed; rw [hc, he])
  constructor
  · simp [ArgumentNames.shortName, h, hc, hcd]
  · simp [ArgumentNames.longName, h, hc, hcd]

/-- C4 (witness): `["file", "-f", "--file"]`, later aliases of both dashed forms. -/
theorem shortName_longName_positional_witness :
    (ArgumentNames.mk ["file", "-f", "--file"]).shortName = some "file" ∧
    (ArgumentNames.mk ["file", "-f", "--file"]).longName = some "file" :=
  shortName_longName_positional (ArgumentNames.mk ["file", "-f", "--file"]) "file"
    ["-f", "--file"] rfl (by decide) (by decide)

/-- C5: for every name set and token, `contains(token)` is true exactly when the
token equals one of the declared aliases; so every declared alias is accepted,
and the empty name set contains nothing. -/
theorem contains_iff_mem (ns : ArgumentNames) (token : String) :
    (ns.contains token = true ↔ token ∈ ns.names_) ∧
    (∀ alias_ ∈ ns.names_, ns.contains alias_ = true) ∧
    (ArgumentNames.mk []).contains token = false := by
  have hiff : ∀ t, ns.contains t = true ↔ t ∈ ns.names_ := by
    intro t
    simp only [ArgumentNames.contains, List.any_eq_true, beq_iff_eq]
    constructor
    · rintro ⟨n, hn, rfl⟩; exact hn
    · intro ht; exact ⟨t, ht, rfl⟩
  exact ⟨hiff token, fun a ha => (hiff a).mpr ha, rfl⟩


/-! ## Lemmas on the key order -/

theorem char_eq_of_toNat_eq (a b : Char) (h : a.toNat = b.toNat) : a = b := by
  apply Char.ext
  apply UInt32.ext
  exact h

theorem lexLess_irrefl (a : List Char) : lexLess a a = false := by
  induction a with
  | nil => rfl
  | cons c cs ih => simp [lexLess, ih]

theorem lexLess_asymm (a b : List Char) (h : lexLess a b = true) : lexLess b a = false := by
  induction a generalizing b with
  | nil => cases b <;> simp [lexLess] at h ⊢
  | cons c cs ih =>
    cases b with
    | nil => simp [lexLess] at h
    | cons d ds =>
      simp only [lexLess] at h ⊢
      split_ifs at h ⊢
      all_goals first | omega | rfl | exact ih ds h

theorem lexLess_trans (a b c : List Char) (hab : lexLess a b = true)
    (hbc : lexLess b c = true) : lexLess a c = true := by
  induction a generalizing b c with
  | nil =>
    cases c with
    | nil => cases b <;> simp [lexLess] at hbc
    | cons e es => rfl
  | cons x xs ih =>
    cases b with
    | nil => simp [lexLess] at hab
    | cons y ys =>
      cases c with
      | nil => simp [lexLess] at hbc
      | cons z zs =>
        simp only [lexLess] at hab hbc ⊢
        split_ifs at hab hbc ⊢
        all_goals first | omega | rfl | exact ih ys zs hab hbc

theorem lexLess_total (a b : List Char) (hab : lexLess a b = false)
    (hba : lexLess b a = false) : a = b := by
  induction a generalizing b with
  | nil =>
    cases b with
    | nil => rfl
    | cons d ds => simp [lexLess] at hab
  | cons c cs ih =>
    cases b with
    | nil => simp [lexLess] at hba
    | cons d ds =>
      simp only [lexLess] at hab hba
      split_ifs at hab hba
      have hcd : c = d := char_eq_of_toNat_eq c d (by omega)
      rw [hcd, ih ds hab hba]

theorem less_irrefl (a : String) : less a a = false := lexLess_irrefl a.data

theorem less_asymm (a b : String) (h : less a b = true) : less b a = false :=
  lexLess_asymm a.data b.data h

theorem less_trans (a b c : String) (hab : less a b = true) (hbc : less b c = true) :
    less a c = true :=
  lexLess_trans a.data b.data c.data hab hbc

theorem less_total (a b : String) (hab : less a b = false) (hba : less b a = false) :
    a = b :=
  String.ext (lexLess_total a.data b.data hab hba)

theorem less_ne (a b : String) (h : less a b = true) : a ≠ b := by
  rintro rfl
  rw [less_irrefl] at h
  exact Bool.noConfusion h

/-- Two strictly ascending key sequences with the same members are equal. -/
theorem ordered_eq_of_mem_iff (l₁ l₂ : List String)
    (h₁ : l₁.Pairwise (fun a b => less a b = true))
    (h₂ : l₂.Pairwise (fun a b => less a b = true))
    (hmem : ∀ c, c ∈ l₁ ↔ c ∈ l₂) : l₁ = l₂ := by
  induction l₁ generalizing l₂ with
  | nil =>
    cases l₂ with
    | nil => rfl
    | cons b t => exact absurd ((hmem b).mpr (List.mem_cons_self b t)) (List.not_mem_nil b)
  | cons a t₁ ih =>
    cases l₂ with
    | nil => exact absurd ((hmem a).mp (List.mem_cons_self a t₁)) (List.not_mem_nil a)
    | cons b t₂ =>
      rw [List.pairwise_cons] at h₁ h₂
      have hab : a = b := by
        by_contra hne
        have ha : a ∈ t₂ := by
          rcases List.mem_cons.mp ((hmem a).mp (List.mem_cons_self a t₁)) with h | h
          · exact absurd h hne
          · exact h
        have hb : b ∈ t₁ := by
          rcases List.mem_cons.mp ((hmem b).mpr (List.mem_cons_self b t₂)) with h | h
          · exact absurd h.symm hne
          · exact h
        have h1 := less_asymm a b (h₁.1 b hb)
        rw [h₂.1 a ha] at h1
        exact Bool.noConfusion h1
      subst hab
      have htail : t₁ = t₂ := by
        apply ih t₂ h₁.2 h₂.2
        intro c
        constructor
        · intro hc
          rcases List.mem_cons.mp ((hmem c).mp (List.mem_cons_of_mem a hc)) with h | h
          · exact absurd h (less_ne a c (h₁.1 c hc)).symm
          · exact h
        · intro hc
          rcases List.mem_cons.mp ((hmem c).mpr (List.mem_cons_of_mem a hc)) with h | h
          · exact absurd h (less_ne a c (h₂.1 c hc)).symm
          · exact h
      rw [htail]

/-! ## Lemmas on the sub-command map -/

theorem mapAssign_cons_lt {V : Type} (k : String) (v : V) (rest : List (String × V))
    (key : String) (value : V) (h1 : less key k = true) :
    mapAssign ((k, v) :: rest) key value = (key, value) :: (k, v) :: rest := by
  simp [mapAssign, h1]

theorem mapAssign_cons_gt {V : Type} (k : String) (v : V) (rest : List (String × V))
    (key : String) (value : V) (h1 : less key k = false) (h2 : less k key = true) :
    mapAssign ((k, v) :: rest) key value = (k, v) :: mapAssign rest key value := by
  simp [mapAssign, h1, h2]

theorem mapAssign_cons_eq {V : Type} (k : String) (v : V) (rest : List (String × V))
    (key : String) (value : V) (h1 : less key k = false) (h2 : less k key = false) :
    mapAssign ((k, v) :: rest) key value = (k, value) :: rest := by
  simp [mapAssign, h1, h2]

theorem mapKeys_cons {V : Type} (k : String) (v : V) (rest : List (String × V)) :
    mapKeys ((k, v) :: rest) = k :: mapKeys rest := rfl

theorem mapOrdered_cons {V : Type} (k : String) (v : V) (rest : List (String × V)) :
    mapOrdered ((k, v) :: rest) ↔ (∀ b ∈ mapKeys rest, less k b = true) ∧ mapOrdered rest := by
  unfold mapOrdered
  rw [mapKeys_cons, List.pairwise_cons]

theorem mem_mapKeys_mapAssign {V : Type} (map : List (String × V)) (key : String) (value : V)
    (c : String) : c ∈ mapKeys (mapAssign map key value) ↔ c = key ∨ c ∈ mapKeys map := by
  induction map with
  | nil => simp [mapAssign, mapKeys]
  | cons e rest ih =>
    obtain ⟨k, v⟩ := e
    cases h1 : less key k with
    | true =>
      rw [mapAssign_cons_lt k v rest key value h1]
      simp only [mapKeys_cons, List.mem_cons]
    | false =>
      cases h2 : less k key with
      | true =>
        rw [mapAssign_cons_gt k v rest key value h1 h2]
        simp only [mapKeys_cons, List.mem_cons, ih]
        tauto
      | false =>
        rw [mapAssign_cons_eq k v rest key value h1 h2]
        have hk : key = k := less_total key k h1 h2
        subst hk
        simp only [mapKeys_cons, List.mem_cons]
        tauto

theorem mapOrdered_mapAssign {V : Type} (map : List (String × V)) (key : String) (value : V)
    (h : mapOrdered map) : mapOrdered (mapAssign map key value) := by
  induction map with
  | nil => simp [mapAssign, mapOrdered, mapKeys]
  | cons e rest ih =>
    obtain ⟨k, v⟩ := e
    have h0 := (mapOrdered_cons k v rest).mp h
    cases h1 : less key k with
    | true =>
      rw [mapAssign_cons_lt k v rest key value h1, mapOrdered_cons]
      refine ⟨?_, h⟩
      intro b hb
      rw [mapKeys_cons] at hb
      rcases List.mem_cons.mp hb with rfl | hb
      · exact h1
      · exact less_trans key k b h1 (h0.1 b hb)
    | false =>
      cases h2 : less k key with
      | true =>
        rw [mapAssign_cons_gt k v rest key value h1 h2, mapOrdered_cons]
        refine ⟨?_, ih h0.2⟩
        intro b hb
        rcases (mem_mapKeys_mapAssign rest key value b).mp hb with rfl | hb
        · exact h2
        · exact h0.1 b hb
      | false =>
        rw [mapAssign_cons_eq k v rest key value h1 h2, mapOrdered_cons]
        exact h0

theorem mapFind_mapAssign_self {V : Type} (map : List (String × V)) (key : String)
    (value : V) : mapFind (mapAssign map key value) key = some value := by
  induction map with
  | nil => simp [mapAssign, mapFind]
  | cons e rest ih =>
    obtain ⟨k, v⟩ := e
    cases h1 : less key k with
    | true =>
      rw [mapAssign_cons_lt k v rest key value h1]
      simp [mapFind]
    | false =>
      cases h2 : less k key with
      | true =>
        rw [mapAssign_cons_gt k v rest key value h1 h2, mapFind, if_neg (less_ne k key h2), ih]
      | false =>
        rw [mapAssign_cons_eq k v rest key value h1 h2]
        have hk : key = k := less_total key k h1 h2
        simp [mapFind, hk]

theorem mapFind_mapAssign_other {V : Type} (map : List (String × V)) (key : String)
    (value : V) (other : String) (hne : other ≠ key) :
    mapFind (mapAssign map key value) other = mapFind map other := by
  induction map with
  | nil => simp [mapAssign, mapFind, Ne.symm hne]
  | cons e rest ih =>
    obtain ⟨k, v⟩ := e
    cases h1 : less key k with
    | true =>
      rw [mapAssign_cons_lt k v rest key value h1, mapFind, if_neg (Ne.symm hne)]
    | false =>
      cases h2 : less k key with
      | true =>
        rw [mapAssign_cons_gt k v rest key value h1 h2, mapFind, ih]
        rfl
      | false =>
        rw [mapAssign_cons_eq k v rest key value h1 h2]
        have hk : key = k := less_total key k h1 h2
        subst hk
        simp [mapFind, Ne.symm hne]

theorem mapKeys_mapAssign_of_mem {V : Type} (map : List (String × V)) (key : String)
    (value : V) (h : mapOrdered map) (hmem : key ∈ mapKeys map) :
    mapKeys (mapAssign map key value) = mapKeys map := by
  induction map with
  | nil => simp [mapKeys] at hmem
  | cons e rest ih =>
    obtain ⟨k, v⟩ := e
    have h0 := (mapOrdered_cons k v rest).mp h
    have hm : key = k ∨ key ∈ mapKeys rest := by
      rw [mapKeys_cons] at hmem
      exact List.mem_cons.mp hmem
    cases h1 : less key k with
    | true =>
      exfalso
      rcases hm with rfl | hm
      · rw [less_irrefl] at h1; exact Bool.noConfusion h1
      · have := less_asymm k key (h0.1 key hm)
        rw [h1] at this; exact Bool.noConfusion this
    | false =>
      cases h2 : less k key with
      | true =>
        rw [mapAssign_cons_gt k v rest key value h1 h2]
        rcases hm with rfl | hm
        · rw [less_irrefl] at h2; exact Bool.noConfusion h2
        · rw [mapKeys_cons, mapKeys_cons, ih h0.2 hm]
      | false =>
        rw [mapAssign_cons_eq k v rest key value h1 h2]
        rfl

theorem mapKeys_mapAssign_perm {V : Type} (map : List (String × V)) (key : String)
    (value : V) (hmem : key ∉ mapKeys map) :
    (mapKeys (mapAssign map key value)).Perm (key :: mapKeys map) := by
  induction map with
  | nil => simp [mapAssign, mapKeys]
  | cons e rest ih =>
    obtain ⟨k, v⟩ := e
    have hm : key ≠ k ∧ key ∉ mapKeys rest := by
      rw [mapKeys_cons] at hmem
      exact ⟨fun he => hmem (he ▸ List.mem_cons_self _ _),
        fun hr => hmem (List.mem_cons_of_mem _ hr)⟩
    cases h1 : less key k with
    | true =>
      rw [mapAssign_cons_lt k v rest key value h1]
      exact List.Perm.refl _
    | false =>
      cases h2 : less k key with
      | true =>
        rw [mapAssign_cons_gt k v rest key value h1 h2, mapKeys_cons, mapKeys_cons]
        exact (List.Perm.cons k (ih hm.2)).trans (List.Perm.swap key k _)
      | false => exact absurd (less_total key k h1 h2) hm.1

theorem mapFind_of_mem {V : Type} (map : List (String × V)) (key : String)
    (hmem : key ∈ mapKeys map) : ∃ v, mapFind map key = some v := by
  induction map with
  | nil => simp [mapKeys] at hmem
  | cons e rest ih =>
    obtain ⟨k, v⟩ := e
    rw [mapKeys_cons] at hmem
    by_cases hk : k = key
    · exact ⟨v, by simp [mapFind, hk]⟩
    · rcases List.mem_cons.mp hmem with h | h
      · exact absurd h.symm hk
      · obtain ⟨w, hw⟩ := ih h
        exact ⟨w, by rw [mapFind, if_neg hk, hw]⟩

/-! ## Lemmas on the parser node -/

theorem ordered_new (program_name description : String) :
    (ArgumentParser.new program_name description).ordered := by
  simp [ArgumentParser.ordered, ArgumentParser.new, ArgumentParser.sub_commands_, mapOrdered,
    mapKeys]

theorem ordered_newWithEpilogue (program_name description epilogue : String) :
    (ArgumentParser.newWithEpilogue program_name description epilogue).ordered := by
  simp [ArgumentParser.ordered, ArgumentParser.newWithEpilogue, ArgumentParser.sub_commands_,
    mapOrdered, mapKeys]

theorem ordered_addArgument (self : ArgumentParser) (name : List String) (h : self.ordered) :
    (self.addArgument name).1.ordered := h

theorem ordered_addSubCommand (self : ArgumentParser) (command description : String)
    (h : self.ordered) : (self.addSubCommand command description).1.ordered :=
  mapOrdered_mapAssign self.sub_commands_ command _ h

theorem ordered_addSubCommands (self : ArgumentParser) (commands : List (String × String))
    (h : self.ordered) : (self.addSubCommands commands).ordered := by
  induction commands generalizing self with
  | nil => exact h
  | cons c rest ih => exact ih _ (ordered_addSubCommand self c.1 c.2 h)

theorem program_name_addSubCommands (self : ArgumentParser)
    (commands : List (String × String)) :
    (self.addSubCommands commands).program_name_ = self.program_name_ := by
  induction commands generalizing self with
  | nil => rfl
  | cons c rest ih =>
    have := ih (self.addSubCommand c.1 c.2).1
    exact this

theorem mem_mapKeys_addSubCommands (self : ArgumentParser)
    (commands : List (String × String)) (c : String) :
    c ∈ mapKeys (self.addSubCommands commands).sub_commands_ ↔
      c ∈ commands.map Prod.fst ∨ c ∈ mapKeys self.sub_commands_ := by
  induction commands generalizing self with
  | nil => simp [ArgumentParser.addSubCommands]
  | cons d rest ih =>
    have h1 := ih (self.addSubCommand d.1 d.2).1
    have h2 := mem_mapKeys_mapAssign self.sub_commands_ d.1 (ArgumentParser.new d.1 d.2) c
    have h3 : ((self.addSubCommand d.1 d.2).1).sub_commands_ =
        mapAssign self.sub_commands_ d.1 (ArgumentParser.new d.1 d.2) := rfl
    have h4 : self.addSubCommands (d :: rest) =
        (self.addSubCommand d.1 d.2).1.addSubCommands rest := rfl
    rw [h4, h1, h3, h2, List.map_cons, List.mem_cons]
    tauto

theorem foldl_join {V : Type} (rest : List (String × V)) (os acc delimiter : String) :
    rest.foldl (fun os s => os ++ delimiter ++ s.1) (os ++ acc) =
      os ++ String.intercalate.go acc delimiter (mapKeys rest) := by
  induction rest generalizing acc with
  | nil => rfl
  | cons e rest ih =>
    obtain ⟨k, v⟩ := e
    rw [List.foldl_cons, mapKeys_cons]
    have h : os ++ acc ++ delimiter ++ (k, v).1 = os ++ (acc ++ delimiter ++ k) := by
      simp only [String.append_assoc]
    rw [h, ih]
    rfl

/-- `JoinMapKeyTo` appends the keys, in iteration order, joined by the delimiter. -/
theorem JoinMapKeyTo_eq {V : Type} (os : String) (map : List (String × V))
    (delimiter : String) :
    detail.JoinMapKeyTo os map delimiter = os ++ delimiter.intercalate (mapKeys map) := by
  cases map with
  | nil => simp [detail.JoinMapKeyTo, mapKeys, String.intercalate]
  | cons e rest =>
    obtain ⟨k, v⟩ := e
    exact foldl_join rest os k delimiter

/-- The text written by `formatUsage` is a function of the program name and of
the keys of the sub-command map. -/
theorem formatUsage_eq (self : ArgumentParser) (os : String) :
    self.formatUsage os =
      if mapKeys self.sub_commands_ = [] then os ++ "usage: " ++ self.program_name_
      else os ++ "usage: " ++ self.program_name_ ++ " \x7b" ++
        ",".intercalate (mapKeys self.sub_commands_) ++ "\x7d" := by
  unfold ArgumentParser.formatUsage
  cases hs : self.sub_commands_ with
  | nil => simp [mapKeys]
  | cons e rest => simp [mapKeys, JoinMapKeyTo_eq]

/-! ## Claims on the parser node -/

/-- C6 (counterexample): the node `prog` has a sub-command registered under
`build` with description `first`; `addSubCommand("build", "second")` returns a
child instead of failing, and the node is changed: the child registered under
`build` now has description `second`. -/
theorem addSubCommand_duplicate_counterexample :
    "build" ∈ mapKeys ((ArgumentParser.new "prog" "d").addSubCommand "build" "first").1.sub_commands_ ∧
    (mapFind ((ArgumentParser.new "prog" "d").addSubCommand "build" "first").1.sub_commands_
      "build").map ArgumentParser.description_ = some "first" ∧
    (mapFind ((((ArgumentParser.new "prog" "d").addSubCommand "build" "first").1.addSubCommand
      "build" "second").1).sub_commands_ "build").map ArgumentParser.description_ =
        some "second" ∧
    ((((ArgumentParser.new "prog" "d").addSubCommand "build" "first").1.addSubCommand
      "build" "second").1) ≠ ((ArgumentParser.new "prog" "d").addSubCommand "build" "first").1 := by
  refine ⟨by decide, by decide, by decide, ?_⟩
  intro h
  have h2 := congrArg (fun p => (mapFind (ArgumentParser.sub_commands_ p) "build").map
    ArgumentParser.description_) h
  revert h2
  decide

/-- C6 (amended): for every parser node and every name that is already a key of
the node's sub-commands, `addSubCommand(name, description)` does not fail: it
returns a new child with program name `name`, the given description, no
epilogue, no arguments and no sub-commands, and registers it under `name` in
place of the child that was registered there; the sub-command names of the node
are unchanged. -/
theorem addSubCommand_existing (self : ArgumentParser) (command description : String)
    (h : self.ordered) (hmem : command ∈ mapKeys self.sub_commands_) :
    (∃ old, mapFind self.sub_commands_ command = some old) ∧
    (self.addSubCommand command description).2 =
      ArgumentParser.mk command description none [] [] ∧
    mapFind (self.addSubCommand command description).1.sub_commands_ command =
      some (self.addSubCommand command description).2 ∧
    mapKeys (self.addSubCommand command description).1.sub_commands_ =
      mapKeys self.sub_commands_ :=
  ⟨mapFind_of_mem self.sub_commands_ command hmem, rfl,
    mapFind_mapAssign_self self.sub_commands_ command _,
    mapKeys_mapAssign_of_mem self.sub_commands_ command _ h hmem⟩

/-- C6 (witness): the node `prog` with sub-commands `build` and `run`, and a
second `addSubCommand` under `build`. -/
theorem addSubCommand_existing_witness :
    (∃ old, mapFind ((ArgumentParser.new "prog" "d").addSubCommands
      [("run", "r"), ("build", "first")]).sub_commands_ "build" = some old) ∧
    (((ArgumentParser.new "prog" "d").addSubCommands
      [("run", "r"), ("build", "first")]).addSubCommand "build" "second").2 =
      ArgumentParser.mk "build" "second" none [] [] ∧
    mapFind (((ArgumentParser.new "prog" "d").addSubCommands
      [("run", "r"), ("build", "first")]).addSubCommand "build" "second").1.sub_commands_
      "build" = some (((ArgumentParser.new "prog" "d").addSubCommands
      [("run", "r"), ("build", "first")]).addSubCommand "build" "second").2 ∧
    mapKeys (((ArgumentParser.new "prog" "d").addSubCommands
      [("run", "r"), ("build", "first")]).addSubCommand "build" "second").1.sub_commands_ =
      mapKeys ((ArgumentParser.new "prog" "d").addSubCommands
      [("run", "r"), ("build", "first")]).sub_commands_ :=
  addSubCommand_existing ((ArgumentParser.new "prog" "d").addSubCommands
    [("run", "r"), ("build", "first")]) "build" "second" (by decide) (by decide)

/-- C7 (counterexample): the node `prog` has the argument `-v`/`--verbose`;
`addArgument(["-v"])` returns a definition instead of failing, and the new
argument is registered: the node then holds two argument definitions, both of
which contain the alias `-v`. -/
theorem addArgument_duplicate_counterexample :
    (((ArgumentParser.new "prog" "d").addArgument ["-v", "--verbose"]).1.addArgument
      ["-v"]).1.arguments_ = [Argument.ofNames ["-v", "--verbose"], Argument.ofNames ["-v"]] ∧
    (Argument.ofNames ["-v", "--verbose"]).names.contains "-v" = true ∧
    (Argument.ofNames ["-v"]).names.contains "-v" = true := by
  decide

/-- C7 (amended): for every parser node and every name set one of whose aliases
is already an alias of an argument registered in the same node,
`addArgument(nameSet)` does not fail: it registers the new argument at the end
of the node's arguments, the earlier argument stays registered, and the alias is
then contained in at least two registered argument definitions. -/
theorem addArgument_duplicate (self : ArgumentParser) (name : List String) (a : Argument)
    (n : String) (ha : a ∈ self.arguments_) (hn : n ∈ name)
    (hc : a.names.contains n = true) :
    (self.addArgument name).1.arguments_ = self.arguments_ ++ [(self.addArgument name).2] ∧
    (self.addArgument name).2.names.names_ = name ∧
    (self.addArgument name).2.names.contains n = true ∧
    a ∈ (self.addArgument name).1.arguments_ ∧
    2 ≤ ((self.addArgument name).1.arguments_.filter
      (fun x => x.names.contains n)).length := by
  have hnew : (Argument.ofNames name).names.contains n = true := by
    simp only [Argument.names, Argument.ofNames, ArgumentNames.contains, List.any_eq_true,
      beq_iff_eq]
    exact ⟨n, hn, rfl⟩
  have hargs : (self.addArgument name).1.arguments_ =
      self.arguments_ ++ [Argument.ofNames name] := rfl
  have hret : (self.addArgument name).2 = Argument.ofNames name := rfl
  refine ⟨by rw [hargs, hret], by rw [hret]; rfl, by rw [hret]; exact hnew, ?_, ?_⟩
  · rw [hargs]; exact List.mem_append_left _ ha
  · have hold : 1 ≤ (self.arguments_.filter (fun x => x.names.contains n)).length := by
      apply List.length_pos_of_mem
      exact List.mem_filter.mpr ⟨ha, hc⟩
    rw [hargs, List.filter_append, List.length_append]
    simp only [List.filter, hnew, List.length_cons, List.length_nil]
    omega

/-- C7 (witness): the node `prog` with the argument `-v`/`--verbose`, and
`addArgument(["--version", "-v"])`. -/
theorem addArgument_duplicate_witness :
    (((ArgumentParser.new "prog" "d").addArgument ["-v", "--verbose"]).1.addArgument
      ["--version", "-v"]).1.arguments_ =
      ((ArgumentParser.new "prog" "d").addArgument ["-v", "--verbose"]).1.arguments_ ++
        [(((ArgumentParser.new "prog" "d").addArgument ["-v", "--verbose"]).1.addArgument
          ["--version", "-v"]).2] ∧
    (((ArgumentParser.new "prog" "d").addArgument ["-v", "--verbose"]).1.addArgument
      ["--version", "-v"]).2.names.names_ = ["--version", "-v"] ∧
    (((ArgumentParser.new "prog" "d").addArgument ["-v", "--verbose"]).1.addArgument
      ["--version", "-v"]).2.names.contains "-v" = true ∧
    Argument.ofNames ["-v", "--verbose"] ∈
      (((ArgumentParser.new "prog" "d").addArgument ["-v", "--verbose"]).1.addArgument
        ["--version", "-v"]).1.arguments_ ∧
    2 ≤ ((((ArgumentParser.new "prog" "d").addArgument ["-v", "--verbose"]).1.addArgument
      ["--version", "-v"]).1.arguments_.filter (fun x => x.names.contains "-v")).length :=
  addArgument_duplicate ((ArgumentParser.new "prog" "d").addArgument ["-v", "--verbose"]).1
    ["--version", "-v"] (Argument.ofNames ["-v", "--verbose"]) "-v" (by decide) (by decide)
    (by decide)

/-- C8: for every parser node and every name set, `addArgument(nameSet)` appends
exactly one argument definition at the end of the node's argument sequence: the
arguments registered before keep their content and order, the returned
definition is the new last element and carries exactly the given aliases in the
given order, and the node's program name, description, epilogue and
sub-commands are unchanged. -/
theorem addArgument_appends (self : ArgumentParser) (name : List String) :
    (self.addArgument name).1.arguments_ = self.arguments_ ++ [(self.addArgument name).2] ∧
    (self.addArgument name).1.arguments_.length = self.arguments_.length + 1 ∧
    (self.addArgument name).1.arguments_.getLast? = some (self.addArgument name).2 ∧
    (self.addArgument name).2.names.names_ = name ∧
    (self.addArgument name).1.program_name_ = self.program_name_ ∧
    (self.addArgument name).1.description_ = self.description_ ∧
    (self.addArgument name).1.epilogue_ = self.epilogue_ ∧
    (self.addArgument name).1.sub_commands_ = self.sub_commands_ := by
  have hargs : (self.addArgument name).1.arguments_ =
      self.arguments_ ++ [(self.addArgument name).2] := rfl
  refine ⟨hargs, ?_, ?_, rfl, rfl, rfl, rfl, rfl⟩
  · rw [hargs, List.length_append]; rfl
  · rw [hargs, List.getLast?_append]; rfl

/-- C9: for every parser node and every name not yet among its sub-commands,
`addSubCommand(name, description)` registers under that name a new child whose
program name is `name`, whose description is `description`, and which has no
epilogue, no arguments and no sub-commands; the returned node is that child;
every other sub-command is unchanged, the sub-command names are the former ones
and `name`, in ascending order if they were, and the node's own name,
description, epilogue and arguments are unchanged. -/
theorem addSubCommand_fresh (self : ArgumentParser) (command description : String)
    (hfresh : command ∉ mapKeys self.sub_commands_) :
    (self.addSubCommand command description).2 =
      ArgumentParser.mk command description none [] [] ∧
    mapFind (self.addSubCommand command description).1.sub_commands_ command =
      some (self.addSubCommand command description).2 ∧
    (∀ other, other ≠ command →
      mapFind (self.addSubCommand command description).1.sub_commands_ other =
        mapFind self.sub_commands_ other) ∧
    (mapKeys (self.addSubCommand command description).1.sub_commands_).Perm
      (command :: mapKeys self.sub_commands_) ∧
    (self.ordered → (self.addSubCommand command description).1.ordered) ∧
    (self.addSubCommand command description).1.program_name_ = self.program_name_ ∧
    (self.addSubCommand command description).1.description_ = self.description_ ∧
    (self.addSubCommand command description).1.epilogue_ = self.epilogue_ ∧
    (self.addSubCommand command description).1.arguments_ = self.arguments_ :=
  ⟨rfl, mapFind_mapAssign_self self.sub_commands_ command _,
    fun other hne => mapFind_mapAssign_other self.sub_commands_ command _ other hne,
    mapKeys_mapAssign_perm self.sub_commands_ command _ hfresh,
    ordered_addSubCommand self command description, rfl, rfl, rfl, rfl⟩

/-- C9 (witness): the node `prog` with sub-commands `build` and `test`, and
`addSubCommand("run", "r")`. -/
theorem addSubCommand_fresh_witness :
    (((ArgumentParser.new "prog" "d").addSubCommands
      [("test", "t"), ("build", "b")]).addSubCommand "run" "r").1 =
      ArgumentParser.mk "prog" "d" none
        [("build", ArgumentParser.mk "build" "b" none [] []),
         ("run", ArgumentParser.mk "run" "r" none [] []),
         ("test", ArgumentParser.mk "test" "t" none [] [])] [] ∧
    mapFind (((ArgumentParser.new "prog" "d").addSubCommands
      [("test", "t"), ("build", "b")]).addSubCommand "run" "r").1.sub_commands_ "run" =
      some (((ArgumentParser.new "prog" "d").addSubCommands
        [("test", "t"), ("build", "b")]).addSubCommand "run" "r").2 :=
  ⟨rfl, (addSubCommand_fresh ((ArgumentParser.new "prog" "d").addSubCommands
    [("test", "t"), ("build", "b")]) "run" "r" (by decide)).2.1⟩

/-- C10: for every parser node, `formatUsage` writes exactly `usage: ` followed
by the program name when the node has no sub-commands, and otherwise exactly
`usage: <name> {c1,c2,...}` where `c1,c2,...` are the keys of the node's
sub-commands, joined by single commas; these keys are in strictly ascending
order, hence each occurs once; after any sequence of `addSubCommand` calls the
keys are again in strictly ascending order and are the former keys and the
names added; and the text does not depend on the order in which sub-commands
are added. This holds in particular for a node with no argument definitions. -/
theorem formatUsage_subcommands (self : ArgumentParser) (os : String) (h : self.ordered) :
    (self.sub_commands_ = [] →
      self.formatUsage os = os ++ "usage: " ++ self.program_name_) ∧
    (self.sub_commands_ ≠ [] →
      self.formatUsage os = os ++ "usage: " ++ self.program_name_ ++ " \x7b" ++
        ",".intercalate (mapKeys self.sub_commands_) ++ "\x7d") ∧
    (mapKeys self.sub_commands_).Pairwise (fun a b => less a b = true) ∧
    (mapKeys self.sub_commands_).Nodup ∧
    (∀ commands : List (String × String),
      (mapKeys (self.addSubCommands commands).sub_commands_).Pairwise
        (fun a b => less a b = true) ∧
      ∀ c, c ∈ mapKeys (self.addSubCommands commands).sub_commands_ ↔
        c ∈ commands.map Prod.fst ∨ c ∈ mapKeys self.sub_commands_) ∧
    (∀ commands₁ commands₂ : List (String × String), commands₁.Perm commands₂ →
      (self.addSubCommands commands₁).formatUsage os =
        (self.addSubCommands commands₂).formatUsage os) := by
  refine ⟨?_, ?_, h, ?_, ?_, ?_⟩
  · intro hs
    rw [formatUsage_eq, hs]
    rfl
  · intro hs
    rw [formatUsage_eq, if_neg]
    intro hk
    exact hs (List.map_eq_nil_iff.mp hk)
  · exact List.Pairwise.imp_of_mem (fun {a b} _ _ hab => less_ne a b hab) h
  · intro commands
    exact ⟨ordered_addSubCommands self commands h, mem_mapKeys_addSubCommands self commands⟩
  · intro commands₁ commands₂ hperm
    have hkeys : mapKeys (self.addSubCommands commands₁).sub_commands_ =
        mapKeys (self.addSubCommands commands₂).sub_commands_ := by
      apply ordered_eq_of_mem_iff
      · exact ordered_addSubCommands self commands₁ h
      · exact ordered_addSubCommands self commands₂ h
      · intro c
        rw [mem_mapKeys_addSubCommands, mem_mapKeys_addSubCommands,
          (hperm.map Prod.fst).mem_iff]
    rw [formatUsage_eq, formatUsage_eq, hkeys, program_name_addSubCommands,
      program_name_addSubCommands]

/-- C10 (witness): the node `prog` after `addSubCommand` of `run`, `build` and
`test`, in that order: `usage: prog {build,run,test}`. -/
theorem formatUsage_subcommands_witness :
    ((ArgumentParser.new "prog" "d").addSubCommands
      [("run", "r"), ("build", "b"), ("test", "t")]).formatUsage "" =
      "usage: prog \x7bbuild,run,test\x7d" ∧
    ((ArgumentParser.new "prog" "d").addSubCommands
      [("run", "r"), ("build", "b"), ("test", "t")]).formatUsage "" =
    ((ArgumentParser.new "prog" "d").addSubCommands
      [("test", "t"), ("build", "b"), ("run", "r")]).formatUsage "" :=
  ⟨((formatUsage_subcommands ((ArgumentParser.new "prog" "d").addSubCommands
      [("run", "r"), ("build", "b"), ("test", "t")]) "" (by decide)).2.1
      (by intro hs; exact List.noConfusion hs)).trans (by decide),
   (formatUsage_subcommands (ArgumentParser.new "prog" "d") "" (by decide)).2.2.2.2.2
      [("run", "r"), ("build", "b"), ("test", "t")]
      [("test", "t"), ("build", "b"), ("run", "r")] (by decide)⟩

/-! ## Lemmas on definedness and on the text written -/

/-- On a name set whose first alias is non-empty, `shortName` performs no
undefined access and returns a declared alias. -/
theorem shortName_defined (ns : ArgumentNames) (n0 : String) (rest : List String)
    (h : ns.names_ = n0 :: rest) (hne : n0 ≠ "") :
    ∃ s, ns.shortName = some s ∧ s ∈ ns.names_ := by
  have h0 : n0 ∈ ns.names_ := by rw [h]; exact List.mem_cons_self n0 rest
  by_cases hd : dashed n0
  · rw [shortName_of_dashed ns n0 rest h hd]
    rcases shortNameLoop_spec ns.names_ with ⟨pre, s, post, hsplit, _, _, hres⟩ | ⟨_, hres⟩
    · exact ⟨s, by rw [hres]; rfl, by rw [hsplit]; simp⟩
    · exact ⟨n0, by rw [hres]; rfl, h0⟩
  · exact ⟨n0, (shortName_longName_positional_aux ns n0 rest h hne hd).1, h0⟩

/-- On a name set whose first alias is non-empty, `longName` performs no
undefined access and returns a declared alias. -/
theorem longName_defined (ns : ArgumentNames) (n0 : String) (rest : List String)
    (h : ns.names_ = n0 :: rest) (hne : n0 ≠ "") :
    ∃ l, ns.longName = some l ∧ l ∈ ns.names_ := by
  have h0 : n0 ∈ ns.names_ := by rw [h]; exact List.mem_cons_self n0 rest
  by_cases hd : dashed n0
  · rw [longName_of_dashed ns n0 rest h hd]
    rcases longNameLoop_spec ns.names_ with ⟨pre, l, post, hsplit, _, _, hres⟩ | ⟨_, hres⟩
    · exact ⟨l, by rw [hres]; rfl, by rw [hsplit]; simp⟩
    · exact ⟨n0, by rw [hres]; rfl, h0⟩
  · exact ⟨n0, (shortName_longName_positional_aux ns n0 rest h hne hd).2, h0⟩

/-- The text `ArgumentParser::formatUsage` writes does not depend on what the
stream already holds. -/
theorem formatUsage_append (self : ArgumentParser) (os : String) :
    self.formatUsage os = os ++ self.formatUsage "" := by
  rw [formatUsage_eq self os, formatUsage_eq self ""]
  split_ifs
  · simp only [String.append_assoc, String.empty_append]
  · simp only [String.append_assoc, String.empty_append]

/-! ## Claims on rendering and on the builder -/

/-- C11 (the code at the failing input): adding an argument never changes the
text `ArgumentParser::formatUsage` writes; for the node `prog` with the single
argument `-v`/`--verbose`, whose usage fragment is `-v`, the text written is
`usage: prog`, without the fragment. -/
theorem formatUsage_omits_arguments :
    (∀ (self : ArgumentParser) (name : List String) (os : String),
      (self.addArgument name).1.formatUsage os = self.formatUsage os) ∧
    ((ArgumentParser.new "prog" "d").addArgument ["-v", "--verbose"]).1.arguments_ =
      [Argument.ofNames ["-v", "--verbose"]] ∧
    (Argument.ofNames ["-v", "--verbose"]).formatUsage "" = some "-v" ∧
    ((ArgumentParser.new "prog" "d").addArgument ["-v", "--verbose"]).1.formatUsage "" =
      "usage: prog" :=
  ⟨fun _ _ _ => rfl, by decide, by decide, by decide⟩

/-- C12: for every argument definition with a non-empty name set whose first
alias is non-empty, `Argument::formatUsage` appends to the stream exactly the
canonical short name of its name set, `shortName()`, and nothing else; for a
positional argument (first alias not dashed) that is the positional name. -/
theorem argument_formatUsage (a : Argument) (n0 : String) (rest : List String) (os : String)
    (h : a.names.names_ = n0 :: rest) (hne : n0 ≠ "") :
    ∃ s, a.names.shortName = some s ∧ a.formatUsage os = some (os ++ s) ∧
      (¬ dashed n0 → s = n0) := by
  obtain ⟨s, hs, _⟩ := shortName_defined a.names n0 rest h hne
  refine ⟨s, hs, ?_, ?_⟩
  · simp only [Argument.formatUsage, hs]
  · intro hd
    have h1 := (shortName_longName_positional_aux a.names n0 rest h hne hd).1
    rw [hs] at h1
    exact Option.some.inj h1

/-- C12 (witness): the positional argument `file` and the option `--verbose`/`-v`. -/
theorem argument_formatUsage_witness :
    (∃ s, (Argument.ofNames ["file"]).names.shortName = some s ∧
      (Argument.ofNames ["file"]).formatUsage "usage: prog " = some ("usage: prog " ++ s) ∧
      (¬ dashed "file" → s = "file")) ∧
    (Argument.ofNames ["file"]).formatUsage "usage: prog " = some "usage: prog file" ∧
    (Argument.ofNames ["--verbose", "-v"]).formatUsage "" = some "-v" :=
  ⟨argument_formatUsage (Argument.ofNames ["file"]) "file" [] "usage: prog " rfl (by decide),
    by decide, by decide⟩

/-- C13: each builder operation of `Argument` yields the definition it was
called on with only the targeted field changed: `action(a)` sets the action to
`a`, `asFlag` to `Flag` and `asValue` to `Value`, leaving the name set and the
help text unchanged; `help(s)` sets the help text to `s`, leaving the name set
and the action unchanged; when chained, the last action setter wins. -/
theorem builder_frame (a : Argument) (act act₂ : actions.Action) (s : String) :
    ((a.action act).action_ = act ∧ (a.action act).names_ = a.names_ ∧
      (a.action act).help_ = a.help_) ∧
    (a.asFlag.action_ = actions.Action.Flag ∧ a.asFlag.names_ = a.names_ ∧
      a.asFlag.help_ = a.help_) ∧
    (a.asValue.action_ = actions.Action.Value ∧ a.asValue.names_ = a.names_ ∧
      a.asValue.help_ = a.help_) ∧
    ((a.help s).help_ = some s ∧ (a.help s).names_ = a.names_ ∧
      (a.help s).action_ = a.action_) ∧
    ((a.action act).action act₂ = a.action act₂ ∧ a.asFlag.asValue = a.asValue ∧
      a.asValue.asFlag = a.asFlag ∧ ((a.asFlag.help s).asValue).action_ = actions.Action.Value ∧
      ((a.asFlag.help s).asValue).help_ = some s) :=
  ⟨⟨rfl, rfl, rfl⟩, ⟨rfl, rfl, rfl⟩, ⟨rfl, rfl, rfl⟩, ⟨rfl, rfl, rfl⟩, rfl, rfl, rfl, rfl, rfl⟩

/-- C14: the text `ArgumentParser::formatUsage` writes is a function of the node
alone, whatever the stream already holds, and `ArgumentParser::formatHelp`
writes nothing; so two calls of either on the same node write the same text
both times. Both are `const` member functions: the embedded functions take the
node and return only the stream, the node is left as it is. -/
theorem format_repeatable (self : ArgumentParser) (os : String) :
    self.formatUsage os = os ++ self.formatUsage "" ∧
    self.formatUsage (self.formatUsage os) = os ++ self.formatUsage "" ++ self.formatUsage "" ∧
    self.formatHelp os = os ∧
    self.formatHelp (self.formatHelp os) = os := by
  refine ⟨formatUsage_append self os, ?_, rfl, rfl⟩
  rw [formatUsage_append self (self.formatUsage os), formatUsage_append self os]

/-! ## Lemmas on replacement in the sub-command map -/

theorem dashed_ne_empty (s : String) (h : dashed s) : s ≠ "" := by
  rintro rfl
  exact absurd h (by decide)

theorem contains_of_mem (ns : ArgumentNames) (token : String) (h : token ∈ ns.names_) :
    ns.contains token = true := by
  simp only [ArgumentNames.contains, List.any_eq_true, beq_iff_eq]
  exact ⟨token, h, rfl⟩

theorem map_replace_of_not_mem {V : Type} (map : List (String × V)) (key : String)
    (value : V) (h : key ∉ mapKeys map) :
    map.map (fun e => if e.1 = key then (e.1, value) else e) = map := by
  induction map with
  | nil => rfl
  | cons e rest ih =>
    obtain ⟨k, v⟩ := e
    rw [mapKeys_cons] at h
    have hk : k ≠ key := fun he => h (he ▸ List.mem_cons_self _ _)
    have hr : key ∉ mapKeys rest := fun hr => h (List.mem_cons_of_mem _ hr)
    rw [List.map_cons, ih hr]
    simp only [if_neg hk]

/-- Assigning under a key that is present replaces the value of its entry and
leaves every other entry, and the order of the entries, as they were. -/
theorem mapAssign_eq_map_of_mem {V : Type} (map : List (String × V)) (key : String)
    (value : V) (h : mapOrdered map) (hmem : key ∈ mapKeys map) :
    mapAssign map key value =
      map.map (fun e => if e.1 = key then (e.1, value) else e) := by
  induction map with
  | nil => simp [mapKeys] at hmem
  | cons e rest ih =>
    obtain ⟨k, v⟩ := e
    have h0 := (mapOrdered_cons k v rest).mp h
    have hm : key = k ∨ key ∈ mapKeys rest := by
      rw [mapKeys_cons] at hmem
      exact List.mem_cons.mp hmem
    cases h1 : less key k with
    | true =>
      exfalso
      rcases hm with rfl | hm
      · rw [less_irrefl] at h1; exact Bool.noConfusion h1
      · have := less_asymm k key (h0.1 key hm)
        rw [h1] at this; exact Bool.noConfusion this
    | false =>
      cases h2 : less k key with
      | true =>
        have hk : k ≠ key := less_ne k key h2
        rcases hm with rfl | hm
        · exact absurd rfl hk
        · rw [mapAssign_cons_gt k v rest key value h1 h2, List.map_cons, ih h0.2 hm]
          simp only [if_neg hk]
      | false =>
        have hk : key = k := less_total key k h1 h2
        subst hk
        have hr : key ∉ mapKeys rest := fun hr => less_ne key key (h0.1 key hr) rfl
        rw [mapAssign_cons_eq key v rest key value h1 h2, List.map_cons,
          map_replace_of_not_mem rest key value hr]
        simp only [if_true]

/-! ## Claims on validation, definedness and replacement -/

/-- C18 (counterexample): the name set `["-long"]` begins with a dashed alias
and has no alias of the `-x` form and none of the `--xyz` form, yet
`addArgument(["-long"])` returns a definition and registers it in the node. -/
theorem addArgument_no_usable_alias_counterexample :
    dashed "-long" ∧ ¬ isShortForm "-long" ∧ ¬ isLongForm "-long" ∧
    ((ArgumentParser.new "prog" "d").addArgument ["-long"]).1.arguments_ =
      [Argument.ofNames ["-long"]] ∧
    ((ArgumentParser.new "prog" "d").addArgument ["-long"]).2 = Argument.ofNames ["-long"] := by
  decide

/-- C18 (amended): for every parser node and every name set that begins with a
dashed alias and contains neither an alias of the `-x` form nor one of the
`--xyz` form, `addArgument(nameSet)` does not fail: the definition is added as
the last argument of the node and carries the given aliases; its `shortName()`
and `longName()` are declared aliases that do not have the `-x` form,
respectively the `--xyz` form. -/
theorem addArgument_no_usable_alias (self : ArgumentParser) (name : List String)
    (n0 : String) (rest : List String) (h : name = n0 :: rest) (hd : dashed n0)
    (hS : ∀ s ∈ name, ¬ isShortForm s) (hL : ∀ l ∈ name, ¬ isLongForm l) :
    (self.addArgument name).1.arguments_ = self.arguments_ ++ [(self.addArgument name).2] ∧
    (self.addArgument name).2.names.names_ = name ∧
    (∃ s, (self.addArgument name).2.names.shortName = some s ∧ s ∈ name ∧ ¬ isShortForm s) ∧
    (∃ l, (self.addArgument name).2.names.longName = some l ∧ l ∈ name ∧ ¬ isLongForm l) := by
  have hne := dashed_ne_empty n0 hd
  have hnames : (self.addArgument name).2.names.names_ = n0 :: rest := h
  obtain ⟨s, hs, hsm⟩ := shortName_defined (self.addArgument name).2.names n0 rest hnames hne
  obtain ⟨l, hl, hlm⟩ := longName_defined (self.addArgument name).2.names n0 rest hnames hne
  exact ⟨rfl, rfl, ⟨s, hs, hsm, hS s hsm⟩, ⟨l, hl, hlm, hL l hlm⟩⟩

/-- C18 (witness): the node `prog` and the name set `["-long"]`. -/
theorem addArgument_no_usable_alias_witness :
    ((ArgumentParser.new "prog" "d").addArgument ["-long"]).1.arguments_ =
      (ArgumentParser.new "prog" "d").arguments_ ++
        [((ArgumentParser.new "prog" "d").addArgument ["-long"]).2] ∧
    ((ArgumentParser.new "prog" "d").addArgument ["-long"]).2.names.names_ = ["-long"] ∧
    (∃ s, ((ArgumentParser.new "prog" "d").addArgument ["-long"]).2.names.shortName = some s ∧
      s ∈ ["-long"] ∧ ¬ isShortForm s) ∧
    (∃ l, ((ArgumentParser.new "prog" "d").addArgument ["-long"]).2.names.longName = some l ∧
      l ∈ ["-long"] ∧ ¬ isLongForm l) :=
  addArgument_no_usable_alias (ArgumentParser.new "prog" "d") ["-long"] "-long" [] rfl
    (by decide) (by decide) (by decide)

/-- C19: for every non-empty name set whose first alias is a non-empty string,
whatever the other aliases are, `shortName()` and `longName()` perform no
undefined access (no element beyond the vector, no character beyond a string)
and each returns one of the declared aliases, so `contains(shortName())` and
`contains(longName())` are true. -/
theorem shortName_longName_defined (ns : ArgumentNames) (n0 : String) (rest : List String)
    (h : ns.names_ = n0 :: rest) (hne : n0 ≠ "") :
    (∃ s, ns.shortName = some s ∧ s ∈ ns.names_ ∧ ns.contains s = true) ∧
    (∃ l, ns.longName = some l ∧ l ∈ ns.names_ ∧ ns.contains l = true) := by
  obtain ⟨s, hs, hsm⟩ := shortName_defined ns n0 rest h hne
  obtain ⟨l, hl, hlm⟩ := longName_defined ns n0 rest h hne
  exact ⟨⟨s, hs, hsm, contains_of_mem ns s hsm⟩, ⟨l, hl, hlm, contains_of_mem ns l hlm⟩⟩

/-- C19 (witness): `["-", "", "x", "--"]`, with an empty alias and aliases of
size 1 and 2. -/
theorem shortName_longName_defined_witness :
    ((∃ s, (ArgumentNames.mk ["-", "", "x", "--"]).shortName = some s ∧
      s ∈ (ArgumentNames.mk ["-", "", "x", "--"]).names_ ∧
      (ArgumentNames.mk ["-", "", "x", "--"]).contains s = true) ∧
    (∃ l, (ArgumentNames.mk ["-", "", "x", "--"]).longName = some l ∧
      l ∈ (ArgumentNames.mk ["-", "", "x", "--"]).names_ ∧
      (ArgumentNames.mk ["-", "", "x", "--"]).contains l = true)) ∧
    (ArgumentNames.mk ["-", "", "x", "--"]).shortName = some "-" ∧
    (ArgumentNames.mk ["-", "", "x", "--"]).longName = some "-" :=
  ⟨shortName_longName_defined (ArgumentNames.mk ["-", "", "x", "--"]) "-" ["", "x", "--"] rfl
    (by decide), by decide, by decide⟩

/-- C20: for every parser node that has a sub-command registered under a name,
`addSubCommand(name, description)` replaces that child by a fresh node with the
given name and description, no epilogue, no arguments and no sub-commands: the
sub-command entries after the call are the former entries with the value under
`name` replaced, so no entry under `name` holds the former child; the
sub-command names, their number, and every other child are unchanged. -/
theorem addSubCommand_replaces (self : ArgumentParser) (command description : String)
    (h : self.ordered) (hmem : command ∈ mapKeys self.sub_commands_) :
    (self.addSubCommand command description).1.sub_commands_ =
      self.sub_commands_.map (fun e =>
        if e.1 = command then (e.1, ArgumentParser.mk command description none [] [])
        else e) ∧
    mapFind (self.addSubCommand command description).1.sub_commands_ command =
      some (ArgumentParser.mk command description none [] []) ∧
    (∀ child, (command, child) ∈ (self.addSubCommand command description).1.sub_commands_ →
      child = ArgumentParser.mk command description none [] []) ∧
    mapKeys (self.addSubCommand command description).1.sub_commands_ =
      mapKeys self.sub_commands_ ∧
    (self.addSubCommand command description).1.sub_commands_.length =
      self.sub_commands_.length ∧
    (∀ other, other ≠ command →
      mapFind (self.addSubCommand command description).1.sub_commands_ other =
        mapFind self.sub_commands_ other) := by
  have hmap : (self.addSubCommand command description).1.sub_commands_ =
      self.sub_commands_.map (fun e =>
        if e.1 = command then (e.1, ArgumentParser.mk command description none [] [])
        else e) :=
    mapAssign_eq_map_of_mem self.sub_commands_ command _ h hmem
  refine ⟨hmap, mapFind_mapAssign_self self.sub_commands_ command _, ?_,
    mapKeys_mapAssign_of_mem self.sub_commands_ command _ h hmem, ?_,
    fun other hne => mapFind_mapAssign_other self.sub_commands_ command _ other hne⟩
  · intro child hchild
    rw [hmap] at hchild
    obtain ⟨e, _, he⟩ := List.mem_map.mp hchild
    by_cases hk : e.1 = command
    · rw [if_pos hk] at he
      exact (Prod.mk.inj he).2.symm
    · rw [if_neg hk] at he
      exact absurd (congrArg Prod.fst he) hk
  · rw [hmap, List.length_map]

/-- C20 (witness): the node `prog` with sub-commands `run` and `build`, the latter
configured with an argument and a sub-command of its own, and a second
`addSubCommand` under `build`. -/
theorem addSubCommand_replaces_witness :
    ((ArgumentParser.mk "prog" "d" none
      [("build", ArgumentParser.mk "build" "first" none
          [("all", ArgumentParser.mk "all" "a" none [] [])] [Argument.ofNames ["--target"]]),
       ("run", ArgumentParser.mk "run" "r" none [] [])] []).addSubCommand "build" "second").1 =
      ArgumentParser.mk "prog" "d" none
        [("build", ArgumentParser.mk "build" "second" none [] []),
         ("run", ArgumentParser.mk "run" "r" none [] [])] [] ∧
    mapKeys ((ArgumentParser.mk "prog" "d" none
      [("build", ArgumentParser.mk "build" "first" none
          [("all", ArgumentParser.mk "all" "a" none [] [])] [Argument.ofNames ["--target"]]),
       ("run", ArgumentParser.mk "run" "r" none [] [])]
      []).addSubCommand "build" "second").1.sub_commands_ =
      mapKeys (ArgumentParser.mk "prog" "d" none
      [("build", ArgumentParser.mk "build" "first" none
          [("all", ArgumentParser.mk "all" "a" none [] [])] [Argument.ofNames ["--target"]]),
       ("run", ArgumentParser.mk "run" "r" none [] [])] []).sub_commands_ :=
  ⟨rfl, (addSubCommand_replaces (ArgumentParser.mk "prog" "d" none
      [("build", ArgumentParser.mk "build" "first" none
          [("all", ArgumentParser.mk "all" "a" none [] [])] [Argument.ofNames ["--target"]]),
       ("run", ArgumentParser.mk "run" "r" none [] [])] []) "build" "second"
      (by decide) (by decide)).2.2.2.1⟩

end claparse
